import Mathlib

/-!
Shallow embedding of the batch image converter (src/script.js): the input
normalizer (ZIP and loose-file classification), the conversion loop, the
filename rewriting, and the archive packer with collision-safe naming.

JavaScript strings are modelled as `List Char`; `String.prototype.split('.')`
becomes `splitDot`, `Array.prototype.join('.')` becomes `joinDot`, template
interpolation of a counter becomes `natChars` (decimal rendering).  The
browser's image decode (FileReader + Image) and encode (canvas.toBlob) are
external collaborators and are modelled as a `Codec` parameter.
-/

namespace ConvertImg

/-- JavaScript strings, modelled as their character lists. -/
abbrev Str := List Char

/-- `s.toLowerCase()` (ASCII case folding suffices for the comparisons made). -/
def lcase (s : Str) : Str := s.map Char.toLower

/-- Whether `pat` occurs in `s` as a contiguous substring; this is exactly
when the regular expression built from the literal `pat` matches `s`. -/
def containsSub (s pat : Str) : Bool := s.tails.any (fun t => pat.isPrefixOf t)

/-- `filename.split('.')` from the source: split on every dot.  Always
returns a nonempty list; splitting the empty string gives `[[]]`. -/
def splitDot : Str → List Str
  | [] => [[]]
  | c :: cs =>
    match splitDot cs with
    | [] => [[]]
    | p :: ps => if c = '.' then [] :: p :: ps else (c :: p) :: ps

/-- `parts.join('.')` from the source. -/
def joinDot : List Str → Str
  | [] => []
  | [s] => s
  | s :: ss => s ++ '.' :: joinDot ss

/-- `getExtension` (script.js:128-132): the part after the last dot, or the
empty string when the name has no dot. -/
def getExtension (filename : Str) : Str :=
  let parts := splitDot filename
  if parts.length ≤ 1 then [] else parts.getLastD []

/-- `supportedExtensions` (script.js:15). -/
def supportedExtensions : List Str := ["png".data, "jpg".data, "jpeg".data, "webp".data]

/-- `isZipFile` (script.js:66-68): by lower-cased `.zip` suffix or by the
declared content type `application/zip`. -/
def isZipFile (name declaredType : Str) : Bool :=
  ".zip".data.isSuffixOf (lcase name) || decide (declaredType = "application/zip".data)

/-- `isImageFileSupported` (script.js:124-126): the regex
`/image\/(png|jpeg|webp)/` matches `file.type` exactly when one of the three
literals occurs in it as a substring (the regex is unanchored). -/
def isImageFileSupported (declaredType : Str) : Bool :=
  containsSub declaredType "image/png".data ||
    containsSub declaredType "image/jpeg".data ||
    containsSub declaredType "image/webp".data

/-- `guessMimeTypeFromExt` (script.js:134-142); the default case returns the
empty (falsy) string. -/
def guessMimeTypeFromExt (ext : Str) : Str :=
  if ext = "png".data then "image/png".data
  else if ext = "jpg".data ∨ ext = "jpeg".data then "image/jpeg".data
  else if ext = "webp".data then "image/webp".data
  else []

/-- An accepted work-list item (an element of `originalFiles`): blob, the
original name, and the source format tag, which the source keeps as a string
(`'png'`, `'jpeg'` or `'webp'`). -/
structure Item (β : Type) where
  blob : β
  originalName : Str
  format : Str
deriving DecidableEq

/-- `handleRegularFile` (script.js:104-122) for a loose file with name
`name`, declared content type `declaredType` and content `blob`: either an
accepted `Item` or a diagnostic message. -/
def handleRegularFile {β : Type} (name declaredType : Str) (blob : β) : Item β ⊕ Str :=
  let ext := lcase (getExtension name)
  if isImageFileSupported declaredType then
    if declaredType = "image/png".data then Sum.inl ⟨blob, name, "png".data⟩
    else if declaredType = "image/jpeg".data then Sum.inl ⟨blob, name, "jpeg".data⟩
    else if declaredType = "image/webp".data then Sum.inl ⟨blob, name, "webp".data⟩
    else Sum.inr (name ++ " は非対応の画像形式です。".data)
  else if ext = "zip".data then Sum.inr (name ++ " のZIP処理中に問題がありました。".data)
  else Sum.inr (name ++ " は非対応の拡張子です。".data)

/-- A ZIP entry as yielded by the archive reader: name, directory flag, raw
bytes. -/
structure Entry (β : Type) where
  name : Str
  dir : Bool
  bytes : β
deriving DecidableEq

/-- The per-entry body of the loop in `handleZipFile` (script.js:76-98):
`none` for a skipped directory entry, otherwise an accepted `Item` or a
diagnostic. -/
def processZipEntry {β : Type} (e : Entry β) : Option (Item β ⊕ Str) :=
  if e.dir then none
  else
    let ext := lcase (getExtension e.name)
    if ext ∈ supportedExtensions then
      let mimeType := guessMimeTypeFromExt ext
      if mimeType = [] then some (Sum.inr (e.name ++ " は処理できません。".data))
      else
        let format := if ext = "jpg".data then "jpeg".data
          else if ext = "jpeg".data then "jpeg".data else ext
        some (Sum.inl ⟨e.bytes, e.name, format⟩)
    else some (Sum.inr (e.name ++ " は非対応の拡張子です。".data))

/-- The entry loop of `handleZipFile`, collecting accepted items and
diagnostics in entry order. -/
def collectEntries {β : Type} : List (Entry β) → List (Item β) × List Str
  | [] => ([], [])
  | e :: es =>
    let rest := collectEntries es
    match processZipEntry e with
    | none => rest
    | some (Sum.inl it) => (it :: rest.1, rest.2)
    | some (Sum.inr d) => (rest.1, d :: rest.2)

/-- `handleZipFile` (script.js:70-102): `load` is the outcome of
`JSZip.loadAsync` (`none` when opening the archive throws); a failed open
yields the single archive-level diagnostic. -/
def handleZipFile {β : Type} (name : Str) (load : Option (List (Entry β))) :
    List (Item β) × List Str :=
  match load with
  | none => ([], [name ++ " の解凍に失敗しました。".data])
  | some entries => collectEntries entries

/-- One step of `new Set(...)` insertion (insertion-ordered, first
occurrence kept), used to model `new Set(originalFiles.map(f => f.format))`. -/
def setInsert (acc : List Str) (f : Str) : List Str :=
  if f ∈ acc then acc else acc ++ [f]

/-- The member list of `new Set(l)`, in insertion order. -/
def setOf (l : List Str) : List Str := l.foldl setInsert []

/-- `setFromFormatOption` (script.js:144-160), returning the
`(value, disabled)` state it assigns to the source-format selector. -/
def setFromFormatOption {β : Type} (items : List (Item β)) : Str × Bool :=
  if items.length = 0 then ("mixed".data, true)
  else
    match setOf (items.map Item.format) with
    | [f] => (f, true)
    | _ => ("mixed".data, true)

/-- The target-format selector value (`toFormat.value`), one of the three
keys of `imageMimeMap` (script.js:8-12). -/
inductive TargetFmt
  | png
  | jpeg
  | webp
deriving DecidableEq

/-- `imageMimeMap[toKey].mime` (script.js:8-12). -/
def mimeOf : TargetFmt → Str
  | TargetFmt.png => "image/png".data
  | TargetFmt.jpeg => "image/jpeg".data
  | TargetFmt.webp => "image/webp".data

/-- `imageMimeMap[toKey].ext` (script.js:8-12). -/
def extOf : TargetFmt → Str
  | TargetFmt.png => "png".data
  | TargetFmt.jpeg => "jpg".data
  | TargetFmt.webp => "webp".data

/-- A decoded raster image: the pixel grid the browser decoder hands to the
canvas, with its dimensions. -/
structure Image where
  width : Nat
  height : Nat
  pixels : List Nat
deriving DecidableEq

/-- The browser's codec collaborator (script.js:190-216): `decode` models
`FileReader.readAsDataURL` followed by `Image` decoding (either failure is
the `onerror` path, yielding `none`); `encode` models `canvas.toBlob` with a
target MIME string (a `null` blob from the browser is `none`). -/
structure Codec (β : Type) where
  decode : β → Option Image
  encode : Str → Image → Option β

/-- `convertImageFile` (script.js:190-216): decode, draw onto a canvas whose
width and height are set to the decoded image's (lines 197-198), and encode
the canvas to the output MIME type.  There is no branch that returns the
input blob: the only success path re-encodes the decoded pixel grid. -/
def convertImageFile {β : Type} (c : Codec β) (fileBlob : β) (outputMime : Str) : Option β :=
  match c.decode fileBlob with
  | none => none
  | some img => c.encode outputMime ⟨img.width, img.height, img.pixels⟩

/-- `changeExtension` (script.js:243-250): replace the part after the last
dot, or append a dotted extension when the name has no dot. -/
def changeExtension (filename : Str) (newExt : Str) : Str :=
  let parts := splitDot filename
  if parts.length ≤ 1 then filename ++ '.' :: newExt
  else joinDot (parts.dropLast ++ [newExt])

/-- A recorded `convertedResults` element (script.js:179). -/
structure ConvResult (β : Type) where
  blob : β
  filename : Str
deriving DecidableEq

/-- The conversion loop of the convert-button handler (script.js:162-188):
for each accepted item, run `convertImageFile` with the target MIME; a
non-null result is recorded as a `ConvResult` under the rewritten name, a
null result records a diagnostic naming the original file.  Returns
`(convertedResults, diagnostics)` in input order. -/
def runConversion {β : Type} (c : Codec β) (toKey : TargetFmt) :
    List (Item β) → List (ConvResult β) × List Str
  | [] => ([], [])
  | it :: rest =>
    let tail := runConversion c toKey rest
    match convertImageFile c it.blob (mimeOf toKey) with
    | some resultBlob =>
      (⟨resultBlob, changeExtension it.originalName (extOf toKey)⟩ :: tail.1, tail.2)
    | none => (tail.1, (it.originalName ++ " の変換に失敗しました。".data) :: tail.2)

/-- The decimal digit character for `d < 10`. -/
def digitChar (d : Nat) : Char := Char.ofNat (48 + d)

/-- Decimal rendering of a natural number, fuelled so that it is structural
recursion; `natChars` supplies sufficient fuel. -/
def natCharsGo : Nat → Nat → Str
  | 0, _ => []
  | fuel + 1, n =>
    if n < 10 then [digitChar n] else natCharsGo fuel (n / 10) ++ [digitChar (n % 10)]

/-- The decimal rendering of `n`, as produced by template interpolation of a
counter in the source. -/
def natChars (n : Nat) : Str := natCharsGo (n + 1) n

/-- The candidate built by the do-while loop of `getUniqueFilename`
(script.js:297): `baseName(counter).ext`. -/
def mkName (baseName ext : Str) (counter : Nat) : Str :=
  baseName ++ '(' :: (natChars counter ++ ')' :: '.' :: ext)

/-- The do-while loop of `getUniqueFilename` (script.js:294-299): try
counters upward from `counter` until the candidate is unused.  Fuelled so
that it is structural recursion; `getUniqueFilename` supplies fuel
`usedNames.length + 1`, which is proved sufficient below. -/
def searchFrom (baseName ext : Str) (usedNames : List Str) : Nat → Nat → Str
  | 0, counter => mkName baseName ext counter
  | fuel + 1, counter =>
    let newName := mkName baseName ext counter
    if newName ∈ usedNames then searchFrom baseName ext usedNames fuel (counter + 1)
    else newName

/-- `getUniqueFilename` (script.js:285-302): an unused name is kept; a used
name is split, the last part popped as the extension, the rest re-joined as
the base (the falsy empty base replaced by `file`), and counters tried from
1. -/
def getUniqueFilename (filename : Str) (usedNames : List Str) : Str :=
  if filename ∈ usedNames then
    let parts := splitDot filename
    let ext := parts.getLastD []
    let base := joinDot parts.dropLast
    let baseName := if base = [] then "file".data else base
    searchFrom baseName ext usedNames (usedNames.length + 1) 1
  else filename

/-- The packing loop of the download-all handler (script.js:255-263): each
result gets a unique name which is added to `usedNames` before the next
result is processed; returns the `(entryName, bytes)` pairs in result
order. -/
def packGo {β : Type} : List (ConvResult β) → List Str → List (Str × β)
  | [], _ => []
  | r :: rs, usedNames =>
    let uniqueName := getUniqueFilename r.filename usedNames
    (uniqueName, r.blob) :: packGo rs (uniqueName :: usedNames)

/-- `downloadAllBtn` packing (script.js:252-274), starting from the empty
used-name set. -/
def packEntries {β : Type} (results : List (ConvResult β)) : List (Str × β) :=
  packGo results []

/-- The numeric value of a decimal digit string, used to show that
`natChars` is injective. -/
def charsVal (s : Str) : Nat := s.foldl (fun a c => a * 10 + (c.toNat - 48)) 0

/-- A concrete codec over `List Nat` blobs for evaluating the pipeline: a
blob is `width :: height :: pixels`, decoding fails on blobs shorter than
two numbers. -/
def listCodec : Codec (List Nat) :=
  ⟨fun b =>
    match b with
    | w :: h :: px => some ⟨w, h, px⟩
    | _ => none,
   fun _ i => some (i.width :: i.height :: i.pixels)⟩

/-! ### Splitting and joining on dots -/

theorem splitDot_ne_nil (s : Str) : splitDot s ≠ [] := by
  induction s with
  | nil => simp [splitDot]
  | cons c cs ih =>
    simp only [splitDot]
    rcases h : splitDot cs with _ | ⟨p, ps⟩
    · simp
    · by_cases hc : c = '.' <;> simp [hc]

theorem splitDot_no_dot (s : Str) (h : '.' ∉ s) : splitDot s = [s] := by
  induction s with
  | nil => rfl
  | cons c cs ih =>
    have hc : ¬c = '.' := fun e => h (e ▸ List.mem_cons_self c cs)
    have hcs : '.' ∉ cs := fun m => h (List.mem_cons_of_mem c m)
    simp only [splitDot, ih hcs]
    simp [hc]

theorem splitDot_append (pre last : Str) (h : '.' ∉ last) :
    splitDot (pre ++ '.' :: last) = splitDot pre ++ [last] := by
  induction pre with
  | nil => simp [splitDot, splitDot_no_dot last h]
  | cons c cs ih =>
    simp only [List.cons_append, splitDot, List.append_eq]
    rw [ih]
    rcases h' : splitDot cs with _ | ⟨p, ps⟩
    · exact absurd h' (splitDot_ne_nil cs)
    · by_cases hc : c = '.' <;> simp [hc]

theorem joinDot_splitDot (s : Str) : joinDot (splitDot s) = s := by
  induction s with
  | nil => rfl
  | cons c cs ih =>
    simp only [splitDot]
    rcases h : splitDot cs with _ | ⟨p, ps⟩
    · exact absurd h (splitDot_ne_nil cs)
    · rw [h] at ih
      rcases ps with _ | ⟨q, qs⟩ <;> by_cases hc : c = '.' <;>
        simp_all [joinDot]

theorem joinDot_cons (x : Str) (l : List Str) (h : l ≠ []) :
    joinDot (x :: l) = x ++ '.' :: joinDot l := by
  rcases l with _ | ⟨y, ys⟩
  · exact absurd rfl h
  · rfl

theorem joinDot_concat (xs : List Str) (e : Str) (h : xs ≠ []) :
    joinDot (xs ++ [e]) = joinDot xs ++ '.' :: e := by
  induction xs with
  | nil => exact absurd rfl h
  | cons x xs ih =>
    rcases xs with _ | ⟨y, ys⟩
    · rfl
    · rw [List.cons_append, joinDot_cons x _ (by simp), ih (by simp),
        joinDot_cons x (y :: ys) (by simp)]
      simp

theorem getExtension_of_dot (pre last : Str) (h : '.' ∉ last) :
    getExtension (pre ++ '.' :: last) = last := by
  unfold getExtension
  rw [splitDot_append pre last h]
  have h1 : 1 ≤ (splitDot pre).length := by
    have := splitDot_ne_nil pre
    cases hp : splitDot pre
    · exact absurd hp this
    · simp
  rw [if_neg (by simp only [List.length_append, List.length_cons, List.length_nil]; omega)]
  exact List.getLastD_concat _ _ _

theorem getExtension_no_dot (s : Str) (h : '.' ∉ s) : getExtension s = [] := by
  rw [getExtension, splitDot_no_dot s h]
  simp

theorem changeExtension_of_dot (pre last e : Str) (h : '.' ∉ last) :
    changeExtension (pre ++ '.' :: last) e = pre ++ '.' :: e := by
  unfold changeExtension
  rw [splitDot_append pre last h]
  have h1 : 1 ≤ (splitDot pre).length := by
    cases hp : splitDot pre
    · exact absurd hp (splitDot_ne_nil pre)
    · simp
  rw [if_neg (by simp only [List.length_append, List.length_cons, List.length_nil]; omega),
    List.dropLast_concat,
    joinDot_concat _ _ (splitDot_ne_nil pre), joinDot_splitDot]

/-! ### Decimal rendering of counters -/

theorem digitChar_toNat (d : Nat) (h : d < 10) : (digitChar d).toNat = 48 + d := by
  interval_cases d <;> decide

theorem charsVal_append_digit (s : Str) (c : Char) :
    charsVal (s ++ [c]) = charsVal s * 10 + (c.toNat - 48) := by
  simp [charsVal, List.foldl_append]

theorem charsVal_natCharsGo : ∀ fuel n, n < fuel → charsVal (natCharsGo fuel n) = n := by
  intro fuel
  induction fuel with
  | zero => intro n h; exact absurd h (Nat.not_lt_zero n)
  | succ f ih =>
    intro n h
    rw [natCharsGo]
    by_cases h10 : n < 10
    · rw [if_pos h10]
      have := digitChar_toNat n h10
      simp [charsVal, this]
    · rw [if_neg h10]
      have hdiv : n / 10 < n := Nat.div_lt_self (by omega) (by omega)
      rw [charsVal_append_digit, ih (n / 10) (by omega),
        digitChar_toNat (n % 10) (Nat.mod_lt n (by omega))]
      omega

theorem charsVal_natChars (n : Nat) : charsVal (natChars n) = n :=
  charsVal_natCharsGo (n + 1) n (Nat.lt_succ_self n)

theorem natChars_inj {m n : Nat} (h : natChars m = natChars n) : m = n := by
  have := congrArg charsVal h
  rwa [charsVal_natChars, charsVal_natChars] at this

theorem mkName_inj (baseName ext : Str) {m n : Nat}
    (h : mkName baseName ext m = mkName baseName ext n) : m = n := by
  unfold mkName at h
  have h1 := List.append_cancel_left h
  injection h1 with _ h2
  exact natChars_inj (List.append_cancel_right h2)

/-! ### The collision search terminates on an unused name -/

theorem exists_unused (baseName ext : Str) (used : List Str) :
    ∃ k, k ≤ used.length ∧ mkName baseName ext (1 + k) ∉ used := by
  by_contra hall
  push_neg at hall
  have hinj : Function.Injective fun k : Nat => mkName baseName ext (1 + k) := by
    intro a b hab
    have := mkName_inj baseName ext hab
    omega
  have hcard : ((Finset.range (used.length + 1)).image
      fun k => mkName baseName ext (1 + k)).card = used.length + 1 := by
    rw [Finset.card_image_of_injective _ hinj, Finset.card_range]
  have hsub : ((Finset.range (used.length + 1)).image
      fun k => mkName baseName ext (1 + k)) ⊆ used.toFinset := by
    intro x hx
    rw [Finset.mem_image] at hx
    obtain ⟨k, hk, rfl⟩ := hx
    rw [Finset.mem_range] at hk
    exact List.mem_toFinset.mpr (hall k (by omega))
  have h1 := Finset.card_le_card hsub
  have h2 : used.toFinset.card ≤ used.length := List.toFinset_card_le used
  omega

theorem searchFrom_eq (baseName ext : Str) (used : List Str) :
    ∀ k fuel c : Nat, (∀ j, j < k → mkName baseName ext (c + j) ∈ used) →
      mkName baseName ext (c + k) ∉ used → k < fuel →
      searchFrom baseName ext used fuel c = mkName baseName ext (c + k) := by
  intro k
  induction k with
  | zero =>
    intro fuel c hmem hfree hfuel
    obtain ⟨f, rfl⟩ : ∃ f, fuel = f + 1 := ⟨fuel - 1, by omega⟩
    simp only [searchFrom]
    have hc : mkName baseName ext c ∉ used := by simpa using hfree
    simp [hc]
  | succ k ih =>
    intro fuel c hmem hfree hfuel
    obtain ⟨f, rfl⟩ : ∃ f, fuel = f + 1 := ⟨fuel - 1, by omega⟩
    simp only [searchFrom]
    have hc : mkName baseName ext c ∈ used := by simpa using hmem 0 (by omega)
    rw [if_pos hc]
    have heq : c + 1 + k = c + (k + 1) := by omega
    rw [← heq]
    refine ih f (c + 1) (fun j hj => ?_) ?_ (by omega)
    · have h1 := hmem (j + 1) (by omega)
      have e : c + (j + 1) = c + 1 + j := by omega
      rwa [e] at h1
    · rwa [heq]

theorem getUniqueFilename_mem_eq (filename : Str) (used : List Str)
    (hmem : filename ∈ used) (base ext : Str)
    (hext : (splitDot filename).getLastD [] = ext)
    (hbase : (if joinDot (splitDot filename).dropLast = [] then "file".data
        else joinDot (splitDot filename).dropLast) = base) :
    ∃ n, 1 ≤ n ∧ getUniqueFilename filename used = mkName base ext n ∧
      mkName base ext n ∉ used ∧
      ∀ m, 1 ≤ m → m < n → mkName base ext m ∈ used := by
  have hP : ∃ k, mkName base ext (1 + k) ∉ used := by
    obtain ⟨k, _, hk⟩ := exists_unused base ext used
    exact ⟨k, hk⟩
  have hfuel : Nat.find hP < used.length + 1 := by
    obtain ⟨k, hkle, hk⟩ := exists_unused base ext used
    have := Nat.find_min' hP hk
    omega
  have hrun : searchFrom base ext used (used.length + 1) 1 =
      mkName base ext (1 + Nat.find hP) := by
    apply searchFrom_eq base ext used (Nat.find hP) (used.length + 1) 1 ?_ ?_ hfuel
    · intro j hj
      exact not_not.mp (Nat.find_min hP hj)
    · exact Nat.find_spec hP
  refine ⟨1 + Nat.find hP, by omega, ?_, Nat.find_spec hP, ?_⟩
  · rw [getUniqueFilename, if_pos hmem]
    show searchFrom (if joinDot (splitDot filename).dropLast = [] then "file".data
      else joinDot (splitDot filename).dropLast)
      ((splitDot filename).getLastD []) used (used.length + 1) 1 = _
    rw [hext, hbase, hrun]
  · intro m h1m hmn
    have hj : m - 1 < Nat.find hP := by omega
    have h1 := Nat.find_min hP hj
    have e : 1 + (m - 1) = m := by omega
    rw [e] at h1
    exact not_not.mp h1

theorem getUniqueFilename_not_mem (filename : Str) (used : List Str) :
    getUniqueFilename filename used ∉ used := by
  by_cases hmem : filename ∈ used
  · obtain ⟨n, _, heq, hfree, _⟩ :=
      getUniqueFilename_mem_eq filename used hmem _ _ rfl rfl
    rw [heq]
    exact hfree
  · rw [getUniqueFilename, if_neg hmem]
    exact hmem

theorem packGo_spec {β : Type} :
    ∀ (rs : List (ConvResult β)) (used : List Str),
      ((packGo rs used).map Prod.fst).Nodup ∧
        ∀ u ∈ (packGo rs used).map Prod.fst, u ∉ used := by
  intro rs
  induction rs with
  | nil => intro used; simp [packGo]
  | cons r rs ih =>
    intro used
    simp only [packGo, List.map_cons]
    obtain ⟨ihnodup, ihdisj⟩ := ih (getUniqueFilename r.filename used :: used)
    constructor
    · rw [List.nodup_cons]
      refine ⟨fun hmem => ?_, ihnodup⟩
      exact ihdisj _ hmem (List.mem_cons_self _ _)
    · intro u hu
      rcases List.mem_cons.mp hu with h | h
      · subst h
        exact getUniqueFilename_not_mem _ _
      · exact fun hmem => ihdisj u h (List.mem_cons_of_mem _ hmem)

/-! ### Set-of-formats and the conversion loop -/

theorem foldl_setInsert_mem (l : List Str) :
    ∀ (acc : List Str) (x : Str), x ∈ acc ∨ x ∈ l → x ∈ l.foldl setInsert acc := by
  induction l with
  | nil =>
    intro acc x h
    rcases h with h | h
    · simpa using h
    · simp at h
  | cons y l ih =>
    intro acc x h
    rw [List.foldl_cons]
    apply ih
    rcases h with h | h
    · left
      unfold setInsert
      by_cases hy : y ∈ acc <;> simp [hy, h]
    · rcases List.mem_cons.mp h with rfl | h
      · left
        unfold setInsert
        by_cases hy : x ∈ acc <;> simp [hy]
      · right
        exact h

theorem mem_setOf {l : List Str} {x : Str} (h : x ∈ l) : x ∈ setOf l :=
  foldl_setInsert_mem l [] x (Or.inr h)

theorem setOf_const (l : List Str) (f : Str) (hne : l ≠ []) (hall : ∀ x ∈ l, x = f) :
    setOf l = [f] := by
  have step : ∀ m : List Str, (∀ x ∈ m, x = f) → m.foldl setInsert [f] = [f] := by
    intro m
    induction m with
    | nil => intro _; rfl
    | cons y m ih =>
      intro h
      rw [List.foldl_cons]
      have hy : y = f := h y (List.mem_cons_self y m)
      subst hy
      have hin : setInsert [y] y = [y] := by simp [setInsert]
      rw [hin]
      exact ih fun x hx => h x (List.mem_cons_of_mem _ hx)
  rcases l with _ | ⟨y, l⟩
  · exact absurd rfl hne
  · have hy : y = f := hall y (List.mem_cons_self y l)
    subst hy
    rw [setOf, List.foldl_cons]
    have hin : setInsert [] y = [y] := by simp [setInsert]
    rw [hin]
    exact step l fun x hx => hall x (List.mem_cons_of_mem _ hx)

theorem runConversion_length {β : Type} (c : Codec β) (toKey : TargetFmt) :
    ∀ items : List (Item β),
      (runConversion c toKey items).1.length + (runConversion c toKey items).2.length
        = items.length := by
  intro items
  induction items with
  | nil => rfl
  | cons it rest ih =>
    simp only [runConversion]
    cases h : convertImageFile c it.blob (mimeOf toKey) <;>
      simp only [h, List.length_cons] <;> omega

theorem runConversion_results {β : Type} (c : Codec β) (toKey : TargetFmt) :
    ∀ items : List (Item β),
      (runConversion c toKey items).1 = items.filterMap fun it =>
        (convertImageFile c it.blob (mimeOf toKey)).map
          fun o => ⟨o, changeExtension it.originalName (extOf toKey)⟩ := by
  intro items
  induction items with
  | nil => rfl
  | cons it rest ih =>
    simp only [runConversion, List.filterMap_cons]
    cases h : convertImageFile c it.blob (mimeOf toKey) <;> simp [h, ih]

theorem processZipEntry_accept {β : Type} (e : Entry β) (hd : e.dir = false) (ext : Str)
    (h : lcase (getExtension e.name) = ext) (hmem : ext ∈ supportedExtensions)
    (hmime : ¬guessMimeTypeFromExt ext = []) :
    processZipEntry e = some (Sum.inl ⟨e.bytes, e.name,
      if ext = "jpg".data then "jpeg".data
        else if ext = "jpeg".data then "jpeg".data else ext⟩) := by
  unfold processZipEntry
  rw [hd]
  simp only [Bool.false_eq_true, if_false, h]
  rw [if_pos hmem, if_neg hmime]

/-- Claim C2: for a loose (non-archive) file, classification follows the
declared content type alone: each of the three supported types is accepted
with the matching tag whatever the name is (`photo.txt` with type
`image/png` is accepted as `png`), and every declared type other than those
three exactly is rejected, whatever the name and extension. -/
theorem C2_loose_classification {β : Type} (name declaredType : Str) (blob : β)
    (hz : isZipFile name declaredType = false) :
    (declaredType = "image/png".data →
      handleRegularFile name declaredType blob = Sum.inl ⟨blob, name, "png".data⟩) ∧
    (declaredType = "image/jpeg".data →
      handleRegularFile name declaredType blob = Sum.inl ⟨blob, name, "jpeg".data⟩) ∧
    (declaredType = "image/webp".data →
      handleRegularFile name declaredType blob = Sum.inl ⟨blob, name, "webp".data⟩) ∧
    (¬declaredType = "image/png".data → ¬declaredType = "image/jpeg".data →
      ¬declaredType = "image/webp".data →
      ∃ d, handleRegularFile name declaredType blob = Sum.inr d) := by
  refine ⟨?_, ?_, ?_, ?_⟩
  · intro h
    subst h
    have h1 : isImageFileSupported "image/png".data = true := by decide
    simp [handleRegularFile, h1]
  · intro h
    subst h
    have h1 : isImageFileSupported "image/jpeg".data = true := by decide
    have h2 : ¬("image/jpeg".data : Str) = "image/png".data := by decide
    simp [handleRegularFile, h1, h2]
  · intro h
    subst h
    have h1 : isImageFileSupported "image/webp".data = true := by decide
    have h2 : ¬("image/webp".data : Str) = "image/png".data := by decide
    have h3 : ¬("image/webp".data : Str) = "image/jpeg".data := by decide
    simp [handleRegularFile, h1, h2, h3]
  · intro h1 h2 h3
    unfold handleRegularFile
    by_cases him : isImageFileSupported declaredType = true
    · simp only [him, if_true, if_neg h1, if_neg h2, if_neg h3]
      exact ⟨_, rfl⟩
    · simp only [him, if_false]
      by_cases hext : lcase (getExtension name) = "zip".data
      · rw [if_pos hext]
        exact ⟨_, rfl⟩
      · rw [if_neg hext]
        exact ⟨_, rfl⟩

/-- Claim C2 witness: `photo.txt` with declared type `image/png` is accepted
as `png`, and a declared type outside the three supported ones is rejected
even though the extension `png` looks valid. -/
theorem C2_loose_classification_witness :
    handleRegularFile "photo.txt".data "image/png".data (0 : Nat) =
      Sum.inl ⟨0, "photo.txt".data, "png".data⟩ ∧
    ∃ d, handleRegularFile "photo.png".data "text/plain".data (0 : Nat) = Sum.inr d :=
  ⟨(C2_loose_classification "photo.txt".data "image/png".data 0 (by decide)).1 rfl,
   (C2_loose_classification "photo.png".data "text/plain".data 0 (by decide)).2.2.2
     (by decide) (by decide) (by decide)⟩

/-- Claim C3: a non-directory entry of an opened archive is classified by
the substring after the last dot of its name, case-insensitively: `png`,
`jpg`, `jpeg` and `webp` are accepted (with `jpg` and `jpeg` both
normalizing to tag `jpeg`), and a name with any other extension, or with no
dot at all (empty extension), is rejected with a diagnostic naming the
entry. -/
theorem C3_zip_entry_classification {β : Type} (e : Entry β) (hd : e.dir = false) :
    (∀ pre last : Str, '.' ∉ last → getExtension (pre ++ '.' :: last) = last) ∧
    (∀ s : Str, '.' ∉ s → getExtension s = []) ∧
    (lcase (getExtension e.name) = "png".data →
      processZipEntry e = some (Sum.inl ⟨e.bytes, e.name, "png".data⟩)) ∧
    (lcase (getExtension e.name) = "jpg".data →
      processZipEntry e = some (Sum.inl ⟨e.bytes, e.name, "jpeg".data⟩)) ∧
    (lcase (getExtension e.name) = "jpeg".data →
      processZipEntry e = some (Sum.inl ⟨e.bytes, e.name, "jpeg".data⟩)) ∧
    (lcase (getExtension e.name) = "webp".data →
      processZipEntry e = some (Sum.inl ⟨e.bytes, e.name, "webp".data⟩)) ∧
    (lcase (getExtension e.name) ∉ supportedExtensions →
      processZipEntry e = some (Sum.inr (e.name ++ " は非対応の拡張子です。".data))) := by
  refine ⟨getExtension_of_dot, getExtension_no_dot, ?_, ?_, ?_, ?_, ?_⟩
  · intro h
    rw [processZipEntry_accept e hd _ h (by decide) (by decide)]
    have hfmt : (if ("png".data : Str) = "jpg".data then "jpeg".data
        else if ("png".data : Str) = "jpeg".data then "jpeg".data else "png".data)
        = "png".data := by decide
    rw [hfmt]
  · intro h
    rw [processZipEntry_accept e hd _ h (by decide) (by decide)]
    have hfmt : (if ("jpg".data : Str) = "jpg".data then "jpeg".data
        else if ("jpg".data : Str) = "jpeg".data then "jpeg".data else "jpg".data)
        = "jpeg".data := by decide
    rw [hfmt]
  · intro h
    rw [processZipEntry_accept e hd _ h (by decide) (by decide)]
    have hfmt : (if ("jpeg".data : Str) = "jpg".data then "jpeg".data
        else if ("jpeg".data : Str) = "jpeg".data then "jpeg".data else "jpeg".data)
        = "jpeg".data := by decide
    rw [hfmt]
  · intro h
    rw [processZipEntry_accept e hd _ h (by decide) (by decide)]
    have hfmt : (if ("webp".data : Str) = "jpg".data then "jpeg".data
        else if ("webp".data : Str) = "jpeg".data then "jpeg".data else "webp".data)
        = "webp".data := by decide
    rw [hfmt]
  · intro h
    unfold processZipEntry
    rw [hd]
    simp only [Bool.false_eq_true, if_false]
    rw [if_neg h]

/-- Claim C3 witness: the entry `A.PnG` (mixed case, classified through the
part after its last dot) is accepted with tag `png`, and `notes.txt` is
rejected with a diagnostic naming it. -/
theorem C3_zip_entry_classification_witness :
    processZipEntry (Entry.mk "A.PnG".data false (0 : Nat)) =
      some (Sum.inl ⟨0, "A.PnG".data, "png".data⟩) ∧
    processZipEntry (Entry.mk "notes.txt".data false (0 : Nat)) =
      some (Sum.inr ("notes.txt".data ++ " は非対応の拡張子です。".data)) :=
  ⟨(C3_zip_entry_classification (Entry.mk "A.PnG".data false (0 : Nat)) rfl).2.2.1
     (by decide),
   (C3_zip_entry_classification (Entry.mk "notes.txt".data false (0 : Nat)) rfl).2.2.2.2.2.2
     (by decide)⟩

/-- Claim C9 counterexample: `a.bmp` with declared type `image/pngz` is a
loose non-archive input whose declared type is none of the three supported
image types and whose extension is not `zip`; the claim says it gets the
"unsupported extension" diagnostic, but the code emits the distinct
"unsupported image format" diagnostic (the substring regex of
`isImageFileSupported` matches `image/pngz`). -/
theorem C9_counterexample :
    isZipFile "a.bmp".data "image/pngz".data = false ∧
    ¬("image/pngz".data : Str) = "image/png".data ∧
    ¬("image/pngz".data : Str) = "image/jpeg".data ∧
    ¬("image/pngz".data : Str) = "image/webp".data ∧
    ¬lcase (getExtension "a.bmp".data) = "zip".data ∧
    handleRegularFile "a.bmp".data "image/pngz".data (0 : Nat) =
      Sum.inr ("a.bmp".data ++ " は非対応の画像形式です。".data) ∧
    ¬("a.bmp".data ++ " は非対応の画像形式です。".data : Str) =
      "a.bmp".data ++ " は非対応の拡張子です。".data := by
  decide

/-- Claim C9 as amended: for a loose non-archive input, it is the substring
regex of `isImageFileSupported` that splits the outcomes: when the declared
type does not match `image/(png|jpeg|webp)` at all, the diagnostic is the
"archive processing problem" one if the extension is `zip` and the
"unsupported extension" one otherwise; when the declared type matches the
regex but is not exactly one of the three supported types, the diagnostic is
the distinct "unsupported image format" one.  Each diagnostic names the
file. -/
theorem C9_amended_loose_diagnostics {β : Type} (name declaredType : Str) (blob : β)
    (hz : isZipFile name declaredType = false) :
    (isImageFileSupported declaredType = false →
      handleRegularFile name declaredType blob =
        Sum.inr (name ++ (if lcase (getExtension name) = "zip".data
          then " のZIP処理中に問題がありました。".data
          else " は非対応の拡張子です。".data))) ∧
    (isImageFileSupported declaredType = true →
      ¬declaredType = "image/png".data → ¬declaredType = "image/jpeg".data →
      ¬declaredType = "image/webp".data →
      handleRegularFile name declaredType blob =
        Sum.inr (name ++ " は非対応の画像形式です。".data)) := by
  constructor
  · intro him
    unfold handleRegularFile
    simp only [him, Bool.false_eq_true, if_false]
    by_cases hext : lcase (getExtension name) = "zip".data
    · rw [if_pos hext, if_pos hext]
    · rw [if_neg hext, if_neg hext]
  · intro him h1 h2 h3
    unfold handleRegularFile
    simp only [him, if_true, if_neg h1, if_neg h2, if_neg h3]

/-- Claim C9 amended witness: `notes.txt` with declared type `text/plain`
(no regex match) gets the unsupported-extension diagnostic; `a.bmp` with
declared type `image/pngz` (regex match, not an exact supported type) gets
the unsupported-image-format diagnostic. -/
theorem C9_amended_loose_diagnostics_witness :
    handleRegularFile "notes.txt".data "text/plain".data (0 : Nat) =
      Sum.inr ("notes.txt".data ++ " は非対応の拡張子です。".data) ∧
    handleRegularFile "a.bmp".data "image/pngz".data (1 : Nat) =
      Sum.inr ("a.bmp".data ++ " は非対応の画像形式です。".data) := by
  constructor
  · have h := (C9_amended_loose_diagnostics "notes.txt".data "text/plain".data (0 : Nat)
      (by decide)).1 (by decide)
    rw [h]
    have : ¬lcase (getExtension "notes.txt".data) = "zip".data := by decide
    rw [if_neg this]
  · exact (C9_amended_loose_diagnostics "a.bmp".data "image/pngz".data (1 : Nat)
      (by decide)).2 (by decide) (by decide) (by decide) (by decide)

/-- Claim C7: after every normalization pass the source-format selector is
non-editable (disabled in all states) and shows: the placeholder when no
item was accepted, the single shared tag when all accepted items agree, and
the `mixed` placeholder when the accepted items span several tags. -/
theorem C7_selector_states {β : Type} (items : List (Item β)) :
    (setFromFormatOption items).2 = true ∧
    (items = [] → (setFromFormatOption items).1 = "mixed".data) ∧
    (∀ f : Str, ¬items = [] → (∀ it ∈ items, it.format = f) →
      (setFromFormatOption items).1 = f) ∧
    (∀ it1 ∈ items, ∀ it2 ∈ items, ¬it1.format = it2.format →
      (setFromFormatOption items).1 = "mixed".data) := by
  refine ⟨?_, ?_, ?_, ?_⟩
  · unfold setFromFormatOption
    split
    · rfl
    · split <;> rfl
  · intro h
    subst h
    rfl
  · intro f hne hall
    unfold setFromFormatOption
    have hlen : ¬items.length = 0 := by
      rcases items with _ | ⟨it, items⟩
      · exact absurd rfl hne
      · simp
    rw [if_neg hlen]
    have hmapne : items.map Item.format ≠ [] := by
      rcases items with _ | ⟨it, items⟩
      · exact absurd rfl hne
      · simp
    have hallmap : ∀ x ∈ items.map Item.format, x = f := by
      intro x hx
      obtain ⟨it, hit, rfl⟩ := List.mem_map.mp hx
      exact hall it hit
    rw [setOf_const _ f hmapne hallmap]
  · intro it1 h1 it2 h2 hne
    have m1 : it1.format ∈ setOf (items.map Item.format) :=
      mem_setOf (List.mem_map_of_mem Item.format h1)
    have m2 : it2.format ∈ setOf (items.map Item.format) :=
      mem_setOf (List.mem_map_of_mem Item.format h2)
    unfold setFromFormatOption
    by_cases hlen : items.length = 0
    · rw [List.length_eq_zero] at hlen
      subst hlen
      simp at h1
    · rw [if_neg hlen]
      rcases hs : setOf (items.map Item.format) with _ | ⟨g, gs⟩
      · rfl
      · rcases gs with _ | ⟨g2, gs2⟩
        · rw [hs] at m1 m2
          simp at m1 m2
          exact absurd (m1.trans m2.symm) hne
        · rfl

/-- Claim C7 witness: two `png` items lock the selector to `png`; an item
set spanning `png` and `webp` locks it to `mixed`; the empty set shows the
disabled placeholder; the selector is disabled in each case. -/
theorem C7_selector_states_witness :
    (setFromFormatOption [Item.mk (0 : Nat) "a.png".data "png".data,
        Item.mk 1 "b.png".data "png".data]).1 = "png".data ∧
    (setFromFormatOption [Item.mk (0 : Nat) "a.png".data "png".data,
        Item.mk 1 "c.webp".data "webp".data]).1 = "mixed".data ∧
    (setFromFormatOption ([] : List (Item Nat))).1 = "mixed".data ∧
    (setFromFormatOption [Item.mk (0 : Nat) "a.png".data "png".data,
        Item.mk 1 "b.png".data "png".data]).2 = true :=
  ⟨(C7_selector_states [Item.mk (0 : Nat) "a.png".data "png".data,
      Item.mk 1 "b.png".data "png".data]).2.2.1 "png".data (by decide) (by decide),
   (C7_selector_states [Item.mk (0 : Nat) "a.png".data "png".data,
      Item.mk 1 "c.webp".data "webp".data]).2.2.2
     (Item.mk (0 : Nat) "a.png".data "png".data) (by decide)
     (Item.mk 1 "c.webp".data "webp".data) (by decide) (by decide),
   (C7_selector_states ([] : List (Item Nat))).2.1 rfl,
   (C7_selector_states [Item.mk (0 : Nat) "a.png".data "png".data,
      Item.mk 1 "b.png".data "png".data]).1⟩

/-- Claim C4: pack keeps an unused proposed name verbatim, and a colliding
name with a (nonempty) base and an extension gets `(n)` inserted between
base and extension, with `n` the least counter from 1 whose candidate is
unused; two results named `a.png` pack as `a.png`, `a(1).png`, three named
`b.png` pack as `b.png`, `b(1).png`, `b(2).png`, in result order. -/
theorem C4_collision_insertion :
    (∀ (filename : Str) (used : List Str), filename ∉ used →
      getUniqueFilename filename used = filename) ∧
    (∀ (pre last : Str) (used : List Str), '.' ∉ last → ¬pre = [] →
      pre ++ '.' :: last ∈ used →
      ∃ n, 1 ≤ n ∧
        getUniqueFilename (pre ++ '.' :: last) used = mkName pre last n ∧
        mkName pre last n ∉ used ∧
        ∀ m, 1 ≤ m → m < n → mkName pre last m ∈ used) ∧
    packEntries [ConvResult.mk (0 : Nat) "a.png".data, ConvResult.mk 1 "a.png".data] =
      [("a.png".data, 0), ("a(1).png".data, 1)] ∧
    packEntries [ConvResult.mk (0 : Nat) "b.png".data, ConvResult.mk 1 "b.png".data,
        ConvResult.mk 2 "b.png".data] =
      [("b.png".data, 0), ("b(1).png".data, 1), ("b(2).png".data, 2)] := by
  refine ⟨?_, ?_, by decide, by decide⟩
  · intro filename used h
    rw [getUniqueFilename, if_neg h]
  · intro pre last used hlast hpre hmem
    refine getUniqueFilename_mem_eq _ used hmem pre last ?_ ?_
    · rw [splitDot_append pre last hlast]
      exact List.getLastD_concat _ _ _
    · rw [splitDot_append pre last hlast, List.dropLast_concat, joinDot_splitDot]
      exact if_neg hpre

/-- Claim C4 witness: an unused name is kept; the second `a.png` resolves to
the least free counter, concretely `a(1).png`. -/
theorem C4_collision_insertion_witness :
    getUniqueFilename "x.png".data [] = "x.png".data ∧
    ∃ n, 1 ≤ n ∧
      getUniqueFilename ("a".data ++ '.' :: "png".data) ["a.png".data] =
        mkName "a".data "png".data n ∧
      mkName "a".data "png".data n ∉ (["a.png".data] : List Str) ∧
      ∀ m, 1 ≤ m → m < n → mkName "a".data "png".data m ∈ (["a.png".data] : List Str) :=
  ⟨C4_collision_insertion.1 "x.png".data [] (by decide),
   C4_collision_insertion.2.1 "a".data "png".data ["a.png".data]
     (by decide) (by decide) (by decide)⟩

/-- Claim C5 counterexample: a second result named `readme` does not resolve
to `readme(1)`: the code pops the whole name as the extension, the base
becomes empty and is replaced by `file`, so it resolves to
`file(1).readme`. -/
theorem C5_no_extension_counterexample :
    getUniqueFilename "readme".data ["readme".data] = "file(1).readme".data ∧
    ¬("file(1).readme".data : Str) = "readme(1)".data := by
  decide

/-- Claim C5 as amended: a colliding name with no dot is split with the
whole name as its extension and an empty base, and a colliding name whose
part before the last dot is empty likewise has an empty base; in both cases
the base `file` is substituted, so the result is `file(n).<ext>` for the
least free counter `n` from 1: a second `readme` resolves to
`file(1).readme` and a second `.png` resolves to `file(1).png`. -/
theorem C5_amended_empty_base :
    (∀ (name : Str) (used : List Str), '.' ∉ name → name ∈ used →
      ∃ n, 1 ≤ n ∧
        getUniqueFilename name used = mkName "file".data name n ∧
        mkName "file".data name n ∉ used ∧
        ∀ m, 1 ≤ m → m < n → mkName "file".data name m ∈ used) ∧
    (∀ (last : Str) (used : List Str), '.' ∉ last → '.' :: last ∈ used →
      ∃ n, 1 ≤ n ∧
        getUniqueFilename ('.' :: last) used = mkName "file".data last n ∧
        mkName "file".data last n ∉ used ∧
        ∀ m, 1 ≤ m → m < n → mkName "file".data last m ∈ used) ∧
    getUniqueFilename "readme".data ["readme".data] = "file(1).readme".data ∧
    getUniqueFilename ".png".data [".png".data] = "file(1).png".data := by
  refine ⟨?_, ?_, by decide, by decide⟩
  · intro name used hdot hmem
    refine getUniqueFilename_mem_eq name used hmem "file".data name ?_ ?_
    · rw [splitDot_no_dot name hdot]
      rfl
    · rw [splitDot_no_dot name hdot]
      simp [joinDot]
  · intro last used hdot hmem
    have hsplit : splitDot ('.' :: last) = [[], last] := by
      have h := splitDot_append [] last hdot
      simpa using h
    refine getUniqueFilename_mem_eq _ used hmem "file".data last ?_ ?_
    · rw [hsplit]
      rfl
    · rw [hsplit]
      simp [joinDot]

/-- Claim C5 amended witness: the second `readme` resolves to the least free
`file(n).readme` candidate. -/
theorem C5_amended_empty_base_witness :
    ∃ n, 1 ≤ n ∧
      getUniqueFilename "readme".data ["readme".data] =
        mkName "file".data "readme".data n ∧
      mkName "file".data "readme".data n ∉ (["readme".data] : List Str) ∧
      ∀ m, 1 ≤ m → m < n →
        mkName "file".data "readme".data m ∈ (["readme".data] : List Str) :=
  C5_amended_empty_base.1 "readme".data ["readme".data] (by decide) (by decide)

/-- Claim C10: within one pack operation the names assigned to the archive
entries are pairwise distinct, each assigned name avoids the used-name set
as it stood when that result was processed, and in particular the names of
a full `packEntries` run are pairwise distinct, for every result list. -/
theorem C10_pack_names_distinct {β : Type} (results : List (ConvResult β))
    (used : List Str) :
    ((packGo results used).map Prod.fst).Nodup ∧
    (∀ u ∈ (packGo results used).map Prod.fst, u ∉ used) ∧
    ((packEntries results).map Prod.fst).Nodup :=
  ⟨(packGo_spec results used).1, (packGo_spec results used).2,
   (packGo_spec results []).1⟩

/-- Claim C10 witness: packing two results both named `a.png` against a
pre-used set produces distinct names, and the assigned `a(1).png` is not in
the pre-used set. -/
theorem C10_pack_names_distinct_witness :
    ((packGo [ConvResult.mk (5 : Nat) "a.png".data, ConvResult.mk 6 "a.png".data]
        ["x.png".data]).map Prod.fst).Nodup ∧
    ("a(1).png".data : Str) ∉ (["x.png".data] : List Str) :=
  ⟨(C10_pack_names_distinct [ConvResult.mk (5 : Nat) "a.png".data,
      ConvResult.mk 6 "a.png".data] ["x.png".data]).1,
   (C10_pack_names_distinct [ConvResult.mk (5 : Nat) "a.png".data,
      ConvResult.mk 6 "a.png".data] ["x.png".data]).2.1 "a(1).png".data (by decide)⟩

/-- Claim C1: the conversion loop processes every accepted item to the end:
results plus diagnostics always account for every item, and a batch of three
items whose second has undecodable bytes yields exactly the two results for
items 1 and 3 (converted, in input order) and exactly one diagnostic naming
item 2's original filename. -/
theorem C1_failure_isolation {β : Type} (c : Codec β) (toKey : TargetFmt)
    (i1 i2 i3 : Item β) (o1 o3 : β)
    (h1 : convertImageFile c i1.blob (mimeOf toKey) = some o1)
    (h2 : c.decode i2.blob = none)
    (h3 : convertImageFile c i3.blob (mimeOf toKey) = some o3) :
    (∀ items : List (Item β),
      (runConversion c toKey items).1.length + (runConversion c toKey items).2.length
        = items.length) ∧
    runConversion c toKey [i1, i2, i3] =
      ([ConvResult.mk o1 (changeExtension i1.originalName (extOf toKey)),
        ConvResult.mk o3 (changeExtension i3.originalName (extOf toKey))],
       [i2.originalName ++ " の変換に失敗しました。".data]) := by
  refine ⟨runConversion_length c toKey, ?_⟩
  have h2' : convertImageFile c i2.blob (mimeOf toKey) = none := by
    unfold convertImageFile
    rw [h2]
  simp only [runConversion, h1, h2', h3]

/-- Claim C1 witness: a concrete batch of three blobs under the list codec,
the second undecodable, converts items 1 and 3 and records one diagnostic
for item 2. -/
theorem C1_failure_isolation_witness :
    runConversion listCodec TargetFmt.jpeg
      [Item.mk [1, 1, 5] "a.png".data "png".data,
       Item.mk [] "b.png".data "png".data,
       Item.mk [2, 1, 7, 8] "c.png".data "png".data] =
      ([ConvResult.mk [1, 1, 5] (changeExtension "a.png".data (extOf TargetFmt.jpeg)),
        ConvResult.mk [2, 1, 7, 8] (changeExtension "c.png".data (extOf TargetFmt.jpeg))],
       ["b.png".data ++ " の変換に失敗しました。".data]) :=
  (C1_failure_isolation listCodec TargetFmt.jpeg
    (Item.mk [1, 1, 5] "a.png".data "png".data)
    (Item.mk [] "b.png".data "png".data)
    (Item.mk [2, 1, 7, 8] "c.png".data "png".data)
    [1, 1, 5] [2, 1, 7, 8] rfl rfl rfl).2

/-- Claim C6: for a decodable input, `convertImageFile` is exactly the
re-encoding of the decoded pixel grid drawn on a canvas of the decoded
image's width and height — there is no passthrough branch returning the
input bytes, whatever the target (in particular when it equals the source
format, which the function never consults) — and, under the codec contract
that encoding succeeds and its output re-decodes with unchanged dimensions,
the result is non-null and re-decodes to the original pixel dimensions. -/
theorem C6_convert_roundtrip {β : Type} (c : Codec β) (blob : β) (mime : Str)
    (img : Image) (hdec : c.decode blob = some img)
    (henc : ∀ (m : Str) (i : Image), ∃ o, c.encode m i = some o ∧
      ∃ i2, c.decode o = some i2 ∧ i2.width = i.width ∧ i2.height = i.height) :
    convertImageFile c blob mime =
      c.encode mime (Image.mk img.width img.height img.pixels) ∧
    ∃ out, convertImageFile c blob mime = some out ∧
      ∃ i2, c.decode out = some i2 ∧ i2.width = img.width ∧ i2.height = img.height := by
  have heq : convertImageFile c blob mime =
      c.encode mime (Image.mk img.width img.height img.pixels) := by
    unfold convertImageFile
    rw [hdec]
  refine ⟨heq, ?_⟩
  obtain ⟨o, ho, i2, hi2, hw, hh⟩ := henc mime (Image.mk img.width img.height img.pixels)
  exact ⟨o, by rw [heq, ho], i2, hi2, hw, hh⟩

/-- Claim C6 witness: a concrete 2×3 blob under the list codec re-encodes
(around a full decode) to a non-null output that re-decodes at 2×3. -/
theorem C6_convert_roundtrip_witness :
    convertImageFile listCodec [2, 3, 9, 9, 9, 9, 9, 9] "image/png".data =
      listCodec.encode "image/png".data (Image.mk 2 3 [9, 9, 9, 9, 9, 9]) ∧
    ∃ out, convertImageFile listCodec [2, 3, 9, 9, 9, 9, 9, 9] "image/png".data
        = some out ∧
      ∃ i2, listCodec.decode out = some i2 ∧ i2.width = 2 ∧ i2.height = 3 :=
  C6_convert_roundtrip listCodec [2, 3, 9, 9, 9, 9, 9, 9] "image/png".data
    (Image.mk 2 3 [9, 9, 9, 9, 9, 9]) rfl
    (fun m i => ⟨i.width :: i.height :: i.pixels, rfl,
      Image.mk i.width i.height i.pixels, rfl, rfl, rfl⟩)

/-- Claim C8: a successful conversion is recorded under the original name
with the part after its last dot replaced by the target's canonical
extension, and the canonical extensions are `png ↦ png`, `jpeg ↦ jpg`,
`webp ↦ webp`; `photo.png` converted with target `jpeg` is recorded as
`photo.jpg`. -/
theorem C8_output_filename {β : Type} (c : Codec β) (toKey : TargetFmt) :
    extOf TargetFmt.png = "png".data ∧ extOf TargetFmt.jpeg = "jpg".data ∧
    extOf TargetFmt.webp = "webp".data ∧
    (∀ pre last e : Str, '.' ∉ last →
      changeExtension (pre ++ '.' :: last) e = pre ++ '.' :: e) ∧
    (∀ items : List (Item β),
      (runConversion c toKey items).1 = items.filterMap fun it =>
        (convertImageFile c it.blob (mimeOf toKey)).map
          fun o => ConvResult.mk o (changeExtension it.originalName (extOf toKey))) ∧
    changeExtension "photo.png".data "jpg".data = "photo.jpg".data :=
  ⟨rfl, rfl, rfl, changeExtension_of_dot, runConversion_results c toKey, by decide⟩

/-- Claim C8 witness: replacing the extension of `photo.png` with the
`jpeg` target's canonical extension `jpg` gives `photo.jpg`. -/
theorem C8_output_filename_witness :
    changeExtension ("photo".data ++ '.' :: "png".data) "jpg".data =
      "photo".data ++ '.' :: "jpg".data :=
  (C8_output_filename listCodec TargetFmt.jpeg).2.2.2.1 "photo".data "png".data
    "jpg".data (by decide)

end ConvertImg
